import Mathlib

/-!
Verification of the `wsts` compute kernel (`src/compute.rs`).

The kernel is six pure functions over the secp256k1 scalar field and group:
`binding`, `challenge`, `lambda`, `intermediate`, `id`, and `poly`.  We embed
them shallowly:

* `Scalar` is embedded as an arbitrary field `F`; `Point` as an arbitrary
  additive commutative group `G` that is a module over `F`.  The scalar field
  of secp256k1 and its point group are an instance of this signature, and the
  algebraic claims proved below are field/module generic.
* `u32` values are embedded as `Nat`, with arithmetic performed modulo `2 ^ 32`
  exactly where the Rust code performs `u32` arithmetic (the `i + 1` inside
  `id`).
* The streaming SHA-256 hasher (`sha2::Sha256`) is embedded by its absorbed
  byte stream: the state is the `List Nat` of bytes fed so far, `update`
  appends, and finalization applies an abstract compression function
  `sha256 : List Nat → List Nat` supplied by a `HashPrims` record together
  with the byte encodings of scalars and points.  The claims about `binding`
  and `challenge` are statements about the order in which bytes reach the
  hasher, so they hold for every choice of these primitives.
* Fallible operations return `Except PointError`.
-/

namespace Wsts

/-- Error type of the external point library (`p256k1::point::Error`),
surfaced by `Point::multimult`. -/
inductive PointError : Type where
  | domainError : PointError
deriving DecidableEq

/-- Modelled from the spec: `PublicNonce` (from `crate::common`, not under
`src/`) is a participant's published per-round commitment pair `(D, E)`,
both group elements (spec section 3). -/
structure PublicNonce (G : Type) where
  D : G
  E : G
deriving DecidableEq

/-- The byte-level primitives consumed from the external libraries:
the SHA-256 compression of a byte stream (`sha2`), the digest-to-scalar
reduction used by `hash_to_scalar`, `Scalar::to_bytes`,
`Point::compress().as_bytes()` and `Point::x().to_bytes()`.
They are abstract: the hashing claims hold for every choice. -/
structure HashPrims (F : Type) (G : Type) where
  sha256 : List Nat → List Nat
  reduceDigest : List Nat → F
  scalarBytes : F → List Nat
  compress : G → List Nat
  xBytes : G → List Nat

/-- `Sha256::new()`: a fresh hasher has absorbed no bytes. -/
def Sha256.new : List Nat := []

/-- `Digest::update`: absorbing bytes appends them to the hasher state. -/
def update (hasher data : List Nat) : List Nat := hasher ++ data

section Defs

variable (F : Type) [Field F] (G : Type) [AddCommGroup G] [Module F G]

/-- Modelled from the spec: `hash_to_scalar` (from `crate::util`, not under
`src/`) finalizes the hasher and maps the digest deterministically into a
Scalar (spec section 4.2). -/
def hash_to_scalar (P : HashPrims F G) (hasher : List Nat) : F :=
  P.reduceDigest (P.sha256 hasher)

/-- The ASCII bytes of the domain tag of `binding` (the variable
named after the tag in the source). -/
def bindingTag : List Nat := "WSTS/binding".toList.map Char.toNat

/-- The ASCII bytes of the domain tag of `challenge`. -/
def challengeTag : List Nat := "BIP0340/challenge".toList.map Char.toNat

/-- `compute::binding`: hash the tag, the id bytes, each nonce's compressed
`D` then `E`, then the message; reduce to a scalar. -/
def binding (P : HashPrims F G) (id : F) (B : List (PublicNonce G))
    (msg : List Nat) : F :=
  let hasher := Sha256.new
  let hasher := update hasher (bindingTag)
  let hasher := update hasher (P.scalarBytes id)
  let hasher := B.foldl
    (fun h b => update (update h (P.compress b.D)) (P.compress b.E)) hasher
  let hasher := update hasher msg
  hash_to_scalar F G P hasher

/-- `compute::challenge`: hash the SHA-256 digest of the tag twice, the
x-coordinate bytes of `R`, the x-coordinate bytes of the public key, then the
message; reduce to a scalar. -/
def challenge (P : HashPrims F G) (publicKey R : G) (msg : List Nat) : F :=
  let hasher := Sha256.new
  let tagHasher := Sha256.new
  let tagHasher := update tagHasher (challengeTag)
  let tagHash := P.sha256 tagHasher
  let hasher := update hasher tagHash
  let hasher := update hasher tagHash
  let hasher := update hasher (P.xBytes R)
  let hasher := update hasher (P.xBytes publicKey)
  let hasher := update hasher msg
  hash_to_scalar F G P hasher

/-- `compute::id`: the one-based Scalar of a zero-based index,
`Scalar::from(i + 1)` with the `+ 1` performed in `u32`. -/
def id (i : Nat) : F := (((i + 1) % 2 ^ 32 : Nat) : F)

/-- `compute::lambda`: the Lagrange interpolation value, accumulated over the
entries of `key_ids` that differ from `i` as integers. -/
def lambda (i : Nat) (key_ids : List Nat) : F :=
  key_ids.foldl
    (fun l j => if i ≠ j then l * (id F j / (id F j - id F i)) else l) 1

/-- The divisors of the field divisions evaluated by `lambda i key_ids`:
one division per entry `j` of `key_ids` with `i ≠ j`, with divisor
`id j - id i`. -/
def lambdaDivisors (i : Nat) (key_ids : List Nat) : List F :=
  (key_ids.filter fun j => i ≠ j).map fun j => id F j - id F i

/-- `compute::intermediate`: per-party binding scalars, per-party effective
commitments `D + ρ·E` (zipping the nonces with the binding scalars), and
their fold by group addition starting from the identity. -/
def intermediate (P : HashPrims F G) (msg : List Nat) (party_ids : List Nat)
    (nonces : List (PublicNonce G)) : List G × G :=
  let rhos : List F := party_ids.map fun i => binding F G P (id F i) nonces msg
  let R_vec : List G := (nonces.zip rhos).map fun nr => nr.1.D + nr.2 • nr.1.E
  let R : G := R_vec.foldl (fun R R_i => R + R_i) 0
  (R_vec, R)

/-- Modelled from the spec: `Point::multimult` (external `p256k1` library) is
the batched sum of scalar multiples, failing with a point-domain error on
invalid input/result (spec section 3); the failure condition is abstracted as
the parameter `ok`. -/
def multimult (ok : List F → List G → Bool) (s : List F) (f : List G) :
    Except PointError G :=
  if ok s f then Except.ok (((s.zip f).map fun p => p.1 • p.2).sum)
  else Except.error PointError.domainError

/-- The scalar ladder built by the loop in `compute::poly`: starting from
`pow`, push the accumulator and multiply it by `x`, once per requested
element. -/
def ladderFrom (x : F) : Nat → F → List F
  | 0, _ => []
  | n + 1, pow => pow :: ladderFrom x n (pow * x)

/-- `compute::poly`: evaluate the public polynomial at `x` by multi-scalar
multiplication of the power ladder against the coefficient commitments. -/
def poly (ok : List F → List G → Bool) (x : F) (f : List G) :
    Except PointError G :=
  multimult F G ok (ladderFrom F x f.length 1) f

end Defs

/-- A concrete, fully executable choice of the byte-level primitives over the
field `ℚ` (also serving as its own module), used to evaluate the compute
functions at concrete inputs. -/
def ratPrims : HashPrims ℚ ℚ where
  sha256 := fun l => l
  reduceDigest := fun l => ((l.sum : Nat) : ℚ)
  scalarBytes := fun _ => []
  compress := fun _ => []
  xBytes := fun _ => []

/-- A concrete multi-scalar-multiplication success condition that always
succeeds, for evaluating `poly` at concrete inputs. -/
def okAll : List ℚ → List ℚ → Bool := fun _ _ => true

/-! ## Theorems -/

/-- Folding a pair of byte-stream updates over a list appends, in list order,
each element's two byte strings to the initial stream. -/
theorem foldl_append_pair {α β : Type} (cd ce : α → List β) (B : List α)
    (init : List β) :
    B.foldl (fun h b => h ++ (cd b ++ ce b)) init
      = init ++ B.flatMap fun b => cd b ++ ce b := by
  induction B generalizing init with
  | nil => simp
  | cons a t ih => simp [ih, List.append_assoc]

/-- C1: for every public key, nonce commitment `R`, and message, `challenge`
is the hash-to-scalar reduction of a SHA-256 hash fed, in order: the SHA-256
digest of the ASCII tag "BIP0340/challenge" twice, then the fixed-width
x-coordinate bytes of `R`, then the fixed-width x-coordinate bytes of the
public key, then the raw message bytes. -/
theorem challenge_hash_order (F : Type) [Field F] (G : Type) [AddCommGroup G]
    [Module F G] (P : HashPrims F G) (publicKey R : G) (msg : List Nat) :
    challenge F G P publicKey R msg
      = P.reduceDigest (P.sha256
          (P.sha256 (challengeTag) ++ P.sha256 (challengeTag) ++
            P.xBytes R ++ P.xBytes publicKey ++ msg)) := rfl

/-- C2: for every scalar id, nonce sequence `B`, and message, `binding` is the
hash-to-scalar reduction of a SHA-256 hash fed, in order: the ASCII bytes of
the tag "WSTS/binding", the fixed-width byte encoding of the id, then for each
nonce of `B` in sequence the compressed `D` bytes followed by the compressed
`E` bytes, and finally the raw message bytes. -/
theorem binding_hash_order (F : Type) [Field F] (G : Type) [AddCommGroup G]
    [Module F G] (P : HashPrims F G) (id : F) (B : List (PublicNonce G))
    (msg : List Nat) :
    binding F G P id B msg
      = P.reduceDigest (P.sha256
          ((bindingTag) ++ P.scalarBytes id ++
            (B.flatMap fun b => P.compress b.D ++ P.compress b.E) ++ msg)) := by
  simp only [binding, Sha256.new, update, hash_to_scalar, List.nil_append,
    foldl_append_pair, List.append_assoc]

/-- Folding a conditional multiplication over a list multiplies the initial
accumulator by the product of the mapped entries that pass the condition. -/
theorem foldl_ite_mul {M : Type} [CommMonoid M] (g : Nat → M) (i : Nat)
    (l : List Nat) (init : M) :
    l.foldl (fun acc j => if i ≠ j then acc * g j else acc) init
      = init * ((l.filter fun j => i ≠ j).map g).prod := by
  induction l generalizing init with
  | nil => simp
  | cons a t ih =>
    by_cases h : i = a
    · subst h
      rw [List.foldl_cons, if_neg (by simp), List.filter_cons_of_neg (by simp),
        ih]
    · rw [List.foldl_cons, if_pos h, List.filter_cons_of_pos (by simp [h]),
        List.map_cons, List.prod_cons, ih, mul_assoc]

/-- C3: `lambda i key_ids` is the product, starting from the multiplicative
identity, over every entry `j` of `key_ids` with `j ≠ i`, of the factor
`id j / (id j - id i)`; and `id` maps a 0-based index `k` to the field
element `k + 1` whenever the `u32` increment `k + 1` does not wrap. -/
theorem lambda_prod_spec (F : Type) [Field F] (i : Nat) (key_ids : List Nat) :
    lambda F i key_ids
        = ((key_ids.filter fun j => i ≠ j).map
            fun j => id F j / (id F j - id F i)).prod
      ∧ ∀ k : Nat, k + 1 < 2 ^ 32 → id F k = ((k + 1 : Nat) : F) := by
  constructor
  · rw [lambda, foldl_ite_mul, one_mul]
  · intro k hk
    rw [id, Nat.mod_eq_of_lt hk]

/-- Witness for C3 at `F = ℚ`, `i = 0`, `key_ids = [1]`, `k = 0`. -/
theorem lambda_prod_spec_witness :
    (0 + 1 < 2 ^ 32 ∧ id ℚ 0 = ((0 + 1 : Nat) : ℚ))
      ∧ lambda ℚ 0 [1]
          = (([1].filter fun j => 0 ≠ j).map
              fun j => id ℚ j / (id ℚ j - id ℚ 0)).prod :=
  ⟨⟨by norm_num, (lambda_prod_spec ℚ 0 [1]).2 0 (by norm_num)⟩,
    (lambda_prod_spec ℚ 0 [1]).1⟩

/-- C10: `lambda i [i]` is the multiplicative identity; more generally,
`lambda` returns the identity on every `key_ids` whose entries all equal `i`,
including the empty sequence. -/
theorem lambda_no_distinct_entry_one (F : Type) [Field F] (i : Nat) :
    lambda F i [i] = 1
      ∧ (∀ key_ids : List Nat, (∀ j ∈ key_ids, j = i) →
          lambda F i key_ids = 1)
      ∧ lambda F i [] = 1 := by
  have key : ∀ key_ids : List Nat, (∀ j ∈ key_ids, j = i) →
      lambda F i key_ids = 1 := by
    intro ks h
    rw [lambda, foldl_ite_mul, one_mul]
    have hnil : ks.filter (fun j => i ≠ j) = [] := by
      refine List.filter_eq_nil_iff.mpr fun a ha => ?_
      simp [h a ha]
    rw [hnil]
    simp
  exact ⟨key [i] (by simp), key, key [] (by simp)⟩

/-- Witness for C10 at `F = ℚ`, `i = 3`, `key_ids = [3, 3]`. -/
theorem lambda_no_distinct_entry_one_witness :
    (∀ j ∈ [3, 3], j = 3) ∧ lambda ℚ 3 [3, 3] = 1 :=
  ⟨by decide, (lambda_no_distinct_entry_one ℚ 3).2.1 [3, 3] (by decide)⟩

/-- C9 counterexample: `key_ids = [1, 1]` is not pairwise distinct after ID
mapping, yet no divisor evaluated by `lambda 0 [1, 1]` is the additive
identity (every divisor equals `id 1 - id 0 = 1`). -/
theorem lambda_dup_no_zero_divisor :
    ¬ (([1, 1].map (id ℚ)).Nodup)
      ∧ (0 : ℚ) ∉ lambdaDivisors ℚ 0 [1, 1] := by
  constructor
  · simp
  · norm_num [lambdaDivisors, id, List.filter]

/-- C9 (amended): a division by the additive identity occurs in the
evaluation of `lambda i key_ids` exactly when some entry `j` of `key_ids`
differs from `i` as an integer but is mapped by `id` to the same scalar as
`i`; duplicate entries of `key_ids` by themselves produce no zero divisor. -/
theorem lambdaDivisors_zero_iff (F : Type) [Field F] (i : Nat)
    (key_ids : List Nat) :
    (0 : F) ∈ lambdaDivisors F i key_ids
      ↔ ∃ j ∈ key_ids, i ≠ j ∧ id F j = id F i := by
  constructor
  · intro h0
    rcases List.mem_map.mp h0 with ⟨j, hj, hval⟩
    rcases List.mem_filter.mp hj with ⟨hjmem, hne⟩
    exact ⟨j, hjmem, by simpa using hne, sub_eq_zero.mp hval⟩
  · rintro ⟨j, hjmem, hne, hval⟩
    refine List.mem_map.mpr ⟨j, List.mem_filter.mpr ⟨hjmem, by simpa using hne⟩, ?_⟩
    rw [hval, sub_self]

/-- On a duplicate-free id list, `lambda` is the Finset product of its factors
over the entries other than `i`. -/
theorem lambda_eq_finset_prod (F : Type) [Field F] (i : Nat)
    (key_ids : List Nat) (hnd : key_ids.Nodup) :
    lambda F i key_ids
      = ∏ j ∈ key_ids.toFinset.erase i, id F j / (id F j - id F i) := by
  rw [lambda, foldl_ite_mul, one_mul]
  have hfil : (key_ids.filter fun j => i ≠ j).Nodup := hnd.filter _
  rw [← List.prod_toFinset _ hfil]
  congr 1
  ext a
  simp only [List.mem_toFinset, List.mem_filter, Finset.mem_erase,
    decide_eq_true_eq]
  constructor
  · rintro ⟨ha, hne⟩
    exact ⟨fun h => hne h.symm, ha⟩
  · rintro ⟨hne, ha⟩
    exact ⟨ha, fun h => hne h.symm⟩

/-- The Lagrange basis polynomial of node `i`, evaluated at zero, is the
product of `v j / (v j - v i)` over the other nodes. -/
theorem eval_lagrange_basis_zero (F : Type) [Field F] (s : Finset Nat)
    (v : Nat → F) (i : Nat) :
    (Lagrange.basis s v i).eval 0 = ∏ j ∈ s.erase i, v j / (v j - v i) := by
  rw [Lagrange.basis, Polynomial.eval_prod]
  refine Finset.prod_congr rfl fun j hj => ?_
  rw [Lagrange.basisDivisor]
  simp only [Polynomial.eval_mul, Polynomial.eval_C, Polynomial.eval_sub,
    Polynomial.eval_X, zero_sub]
  rw [div_eq_mul_inv, show v j - v i = -(v i - v j) by ring, inv_neg]
  ring

/-- C4: Lagrange reconstruction identity: for a polynomial `f` of degree at
most `t` and `t + 1` ids that are pairwise distinct after ID mapping, the sum
over `i` in `key_ids` of `lambda i key_ids * f(id i)` is `f(0)`. -/
theorem lagrange_reconstruction (F : Type) [Field F] (t : Nat)
    (f : Polynomial F) (key_ids : List Nat)
    (hdeg : f.degree ≤ (t : Nat)) (hlen : key_ids.length = t + 1)
    (hnd : (key_ids.map (id F)).Nodup) :
    (key_ids.map fun i => lambda F i key_ids * f.eval (id F i)).sum
      = f.eval 0 := by
  have hndk : key_ids.Nodup := List.Nodup.of_map _ hnd
  have hinj : Set.InjOn (id F) key_ids.toFinset := by
    intro a ha b hb hab
    have ha' : a ∈ key_ids := by simpa using ha
    have hb' : b ∈ key_ids := by simpa using hb
    exact List.inj_on_of_nodup_map hnd ha' hb' hab
  have hcard : key_ids.toFinset.card = t + 1 := by
    rw [List.toFinset_card_of_nodup hndk, hlen]
  have hdlt : f.degree < (key_ids.toFinset.card : Nat) := by
    rw [hcard]
    exact lt_of_le_of_lt hdeg (by exact_mod_cast Nat.lt_succ_self t)
  have hinterp := Lagrange.eq_interpolate hinj hdlt
  have heval0 : f.eval 0
      = ∑ i ∈ key_ids.toFinset,
          f.eval (id F i) * (Lagrange.basis key_ids.toFinset (id F) i).eval 0 := by
    conv_lhs => rw [hinterp]
    rw [Lagrange.interpolate_apply, Polynomial.eval_finset_sum]
    refine Finset.sum_congr rfl fun i hi => ?_
    rw [Polynomial.eval_mul, Polynomial.eval_C]
  rw [heval0, ← List.sum_toFinset _ hndk]
  refine Finset.sum_congr rfl fun i hi => ?_
  rw [eval_lagrange_basis_zero, ← lambda_eq_finset_prod F i key_ids hndk]
  ring

/-- Witness for C4 at `F = ℚ`, `t = 0`, `f = C 3`, `key_ids = [0]`. -/
theorem lagrange_reconstruction_witness :
    ((Polynomial.C (3 : ℚ)).degree ≤ ((0 : Nat) : WithBot Nat)
        ∧ ([0] : List Nat).length = 0 + 1
        ∧ (([0].map (id ℚ)).Nodup))
      ∧ ([0].map fun i =>
            lambda ℚ i [0] * (Polynomial.C (3 : ℚ)).eval (id ℚ i)).sum
          = (Polynomial.C (3 : ℚ)).eval 0 :=
  ⟨⟨by simp, rfl, by simp⟩,
    lagrange_reconstruction ℚ 0 (Polynomial.C 3) [0]
      (by simp) rfl (by simp)⟩

/-- The per-party commitment sequence of `intermediate`, characterized as a
map over the zip of the nonces with the party ids. -/
theorem intermediate_fst_eq (F : Type) [Field F] (G : Type) [AddCommGroup G]
    [Module F G] (P : HashPrims F G) (msg : List Nat) (party_ids : List Nat)
    (nonces : List (PublicNonce G)) :
    (intermediate F G P msg party_ids nonces).1
      = (nonces.zip party_ids).map fun np =>
          np.1.D + binding F G P (id F np.2) nonces msg • np.1.E := by
  show (nonces.zip (party_ids.map fun i => binding F G P (id F i) nonces msg)).map
      (fun nr => nr.1.D + nr.2 • nr.1.E) = _
  rw [List.zip_map_right, List.map_map]
  rfl

/-- C5: with `party_ids` and `nonces` index-aligned (equal lengths), the
first component of `intermediate` holds, at each position `k`, the point
`D_k + ρ_k • E_k` with `ρ_k = binding (id party_ids_k) nonces msg`, and the
second component is the fold of the first by group addition starting from
the identity. -/
theorem intermediate_components (F : Type) [Field F] (G : Type)
    [AddCommGroup G] [Module F G] (P : HashPrims F G) (msg : List Nat)
    (party_ids : List Nat) (nonces : List (PublicNonce G))
    (hlen : party_ids.length = nonces.length) :
    (∀ k, k < party_ids.length →
        (intermediate F G P msg party_ids nonces).1.getD k 0
          = (nonces.getD k ⟨0, 0⟩).D
              + binding F G P (id F (party_ids.getD k 0)) nonces msg
                • (nonces.getD k ⟨0, 0⟩).E)
      ∧ (intermediate F G P msg party_ids nonces).2
          = (intermediate F G P msg party_ids nonces).1.foldl
              (fun R R_i => R + R_i) 0 := by
  constructor
  · intro k hk
    have hk2 : k < nonces.length := hlen ▸ hk
    rw [intermediate_fst_eq]
    rw [List.getD_eq_getElem _ _
      (by simp only [List.length_map, List.length_zip, ← hlen,
        Nat.min_self]; exact hk)]
    rw [List.getElem_map, List.getElem_zip]
    rw [List.getD_eq_getElem _ _ hk2, List.getD_eq_getElem _ _ hk]
  · rfl

/-- Witness for C5 at concrete primitives over `ℚ`, one party, one nonce. -/
theorem intermediate_components_witness :
    (([0] : List Nat).length
        = ([(⟨1, 2⟩ : PublicNonce ℚ)] : List (PublicNonce ℚ)).length)
      ∧ ((∀ k, k < ([0] : List Nat).length →
            (intermediate ℚ ℚ ratPrims [] [0] [⟨1, 2⟩]).1.getD k 0
              = (([(⟨1, 2⟩ : PublicNonce ℚ)]).getD k ⟨0, 0⟩).D
                  + binding ℚ ℚ ratPrims (id ℚ (([0] : List Nat).getD k 0))
                      [⟨1, 2⟩] []
                    • (([(⟨1, 2⟩ : PublicNonce ℚ)]).getD k ⟨0, 0⟩).E)
          ∧ (intermediate ℚ ℚ ratPrims [] [0] [⟨1, 2⟩]).2
              = (intermediate ℚ ℚ ratPrims [] [0] [⟨1, 2⟩]).1.foldl
                  (fun R R_i => R + R_i) 0) :=
  ⟨rfl, intermediate_components ℚ ℚ ratPrims [] [0] [⟨1, 2⟩] rfl⟩

/-- C8: under the caller's index-alignment precondition (which `intermediate`
does not validate), the returned per-party commitment sequence has exactly
the length of `party_ids`. -/
theorem intermediate_length (F : Type) [Field F] (G : Type) [AddCommGroup G]
    [Module F G] (P : HashPrims F G) (msg : List Nat) (party_ids : List Nat)
    (nonces : List (PublicNonce G))
    (hlen : party_ids.length = nonces.length) :
    (intermediate F G P msg party_ids nonces).1.length
      = party_ids.length := by
  rw [intermediate_fst_eq]
  simp [List.length_zip, hlen]

/-- Witness for C8 at concrete primitives over `ℚ`, one party, one nonce. -/
theorem intermediate_length_witness :
    (([0] : List Nat).length
        = ([(⟨1, 2⟩ : PublicNonce ℚ)] : List (PublicNonce ℚ)).length)
      ∧ (intermediate ℚ ℚ ratPrims [] [0] [⟨1, 2⟩]).1.length
          = ([0] : List Nat).length :=
  ⟨rfl, intermediate_length ℚ ℚ ratPrims [] [0] [⟨1, 2⟩] rfl⟩

/-- The scalar ladder of `poly` is the list of powers of `x` scaled by the
initial accumulator. -/
theorem ladderFrom_eq (F : Type) [Field F] (x : F) :
    ∀ (n : Nat) (pow : F),
      ladderFrom F x n pow = (List.range n).map fun k => pow * x ^ k
  | 0, pow => by simp [ladderFrom]
  | n + 1, pow => by
    rw [ladderFrom, ladderFrom_eq F x n (pow * x), List.range_succ_eq_map,
      List.map_cons, List.map_map]
    congr 1
    · simp
    · refine (List.map_congr_left fun k hk => ?_).symm
      simp only [Function.comp_apply]
      rw [pow_succ]
      ring

/-- C6: whenever the multi-scalar multiplication succeeds, `poly x f`
returns the sum over positions `k` of `x ^ k • f_k`, the scalar ladder
having the same length as `f`; in particular, a single-element `f = [f0]`
yields `f0` itself. -/
theorem poly_msm_spec (F : Type) [Field F] (G : Type) [AddCommGroup G]
    [Module F G] (ok : List F → List G → Bool) (x : F) (f : List G) (Pt : G)
    (h : poly F G ok x f = Except.ok Pt) :
    Pt = ((((List.range f.length).map fun k => x ^ k).zip f).map
            fun p => p.1 • p.2).sum
      ∧ ∀ (f0 Pt0 : G), poly F G ok x [f0] = Except.ok Pt0 → Pt0 = f0 := by
  have hladder : ∀ m : Nat,
      ladderFrom F x m 1 = (List.range m).map fun k => x ^ k := by
    intro m
    rw [ladderFrom_eq]
    exact List.map_congr_left fun k hk => one_mul _
  constructor
  · rw [poly, hladder, multimult] at h
    by_cases hok : ok ((List.range f.length).map fun k => x ^ k) f
    · rw [if_pos hok] at h
      exact (Except.ok.inj h).symm
    · rw [if_neg hok] at h
      cases h
  · intro f0 Pt0 h0
    rw [poly, hladder, multimult] at h0
    by_cases hok : ok ((List.range [f0].length).map fun k => x ^ k) [f0]
    · rw [if_pos hok] at h0
      have := (Except.ok.inj h0).symm
      have hr : List.range 1 = [0] := rfl
      simpa [hr, pow_zero, one_smul] using this
    · rw [if_neg hok] at h0
      cases h0

/-- Witness for C6 at `ok = okAll`, `x = 2`, `f = [3]` over `ℚ`. -/
theorem poly_msm_spec_witness :
    poly ℚ ℚ okAll 2 [(3 : ℚ)] = Except.ok 3
      ∧ ((3 : ℚ) = ((((List.range ([(3 : ℚ)].length)).map
              fun k => (2 : ℚ) ^ k).zip [(3 : ℚ)]).map
                fun p => p.1 • p.2).sum
          ∧ ∀ (f0 Pt0 : ℚ), poly ℚ ℚ okAll 2 [f0] = Except.ok Pt0 →
              Pt0 = f0) :=
  ⟨by norm_num [poly, ladderFrom, multimult, okAll],
    poly_msm_spec ℚ ℚ okAll 2 [(3 : ℚ)] 3
      (by norm_num [poly, ladderFrom, multimult, okAll])⟩

/-- C7 counterexample: over `ℚ` with an always-succeeding multi-scalar
multiplication, `poly 5 [1]` returns `1`, while the scalar multiple
`5 • 1` is `5 ≠ 1`: the claimed equation fails at `G = 1`. -/
theorem poly_five_scaling_cex :
    poly ℚ ℚ okAll 5 [(1 : ℚ)] = Except.ok 1
      ∧ ¬((5 : ℚ) • (1 : ℚ) = 1) := by
  constructor
  · norm_num [poly, ladderFrom, multimult, okAll]
  · norm_num

/-- C7 (amended): for a single-coefficient sequence `f = [G0]` and `x = 5`,
whenever the multi-scalar multiplication succeeds, `poly 5 [G0]` equals the
coefficient `G0` itself (it is scaled by `x ^ 0 = One`), not `5 • G0`. -/
theorem poly_five_singleton (F : Type) [Field F] (G : Type) [AddCommGroup G]
    [Module F G] (ok : List F → List G → Bool) (G0 Pt : G)
    (h : poly F G ok 5 [G0] = Except.ok Pt) : Pt = G0 := by
  rw [poly, multimult] at h
  by_cases hok : ok (ladderFrom F 5 [G0].length 1) [G0]
  · rw [if_pos hok] at h
    have := (Except.ok.inj h).symm
    simpa [ladderFrom] using this
  · rw [if_neg hok] at h
    cases h

/-- Witness for the amended C7 at `ok = okAll`, `G0 = 2` over `ℚ`. -/
theorem poly_five_singleton_witness :
    poly ℚ ℚ okAll 5 [(2 : ℚ)] = Except.ok 2 ∧ (2 : ℚ) = 2 :=
  ⟨by norm_num [poly, ladderFrom, multimult, okAll],
    poly_five_singleton ℚ ℚ okAll 2 2
      (by norm_num [poly, ladderFrom, multimult, okAll])⟩

end Wsts
